import Mathlib

/-!
Shallow embedding of `validate_html.py`, a heuristic single-file HTML
validator.  The script reads a document, evaluates eight pattern-based
checks over the raw text, prints a report and exits with status 0 (all
checks passed), 1 (some check failed) or 2 (file not found).

Documents are modelled as `List Char`.  Each Python regular expression is
translated into an executable matcher on character lists; searching
(`re.search`) becomes a scan over all suffixes, and `re.findall` becomes a
left-to-right scan that skips past each match.  Case-insensitive matching
(`re.I`) and the character classes `\s`, `\w`, `[0-9]`, `[0-9a-fA-F]` and
`[a-zA-Z]` are modelled for the code-point ranges the source can meet;
`\w` and lowercasing are modelled on the ASCII range.
-/

namespace ValidateHtml

/-- Lowercase an ASCII letter, used to model `re.I` matching. -/
def lowerChar (c : Char) : Char :=
  if 'A' ≤ c && c ≤ 'Z' then Char.ofNat (c.toNat + 32) else c

/-- Whitespace as matched by Python's `\s` on `str` (also the set stripped
by `str.strip` and counted by `str.isspace`). -/
def isPySpace (c : Char) : Bool :=
  let n := c.toNat
  (9 ≤ n && n ≤ 13) || n == 32 || (28 ≤ n && n ≤ 31) || n == 133 || n == 160 ||
  n == 0x1680 || (0x2000 ≤ n && n ≤ 0x200a) || n == 0x2028 || n == 0x2029 ||
  n == 0x202f || n == 0x205f || n == 0x3000

/-- Line boundaries recognised by Python's `str.splitlines`
(`\r\n` is treated as a single boundary separately). -/
def isLineBreak (c : Char) : Bool :=
  let n := c.toNat
  n == 10 || n == 11 || n == 12 || n == 13 || (28 ≤ n && n ≤ 30) ||
  n == 133 || n == 0x2028 || n == 0x2029

/-- ASCII decimal digit, the class `[0-9]`. -/
def isAsciiDigit (c : Char) : Bool := '0' ≤ c && c ≤ '9'

/-- ASCII hexadecimal digit, the class `[0-9a-fA-F]`. -/
def isHexDigit (c : Char) : Bool :=
  isAsciiDigit c || ('a' ≤ c && c ≤ 'f') || ('A' ≤ c && c ≤ 'F')

/-- ASCII letter, the class `[a-zA-Z]`. -/
def isAsciiLetter (c : Char) : Bool :=
  ('a' ≤ c && c ≤ 'z') || ('A' ≤ c && c ≤ 'Z')

/-- Word character for the `\b` boundary, modelled on the ASCII range of
Python's `\w`: letters, digits and underscore. -/
def isWordChar (c : Char) : Bool :=
  isAsciiLetter c || isAsciiDigit c || c == '_'

/-- Double-quote character. -/
def dquote : Char := Char.ofNat 34

/-- Single-quote character. -/
def squote : Char := Char.ofNat 39

/-- Backslash character. -/
def bslash : Char := Char.ofNat 92

/-- Case-insensitive literal match of a pattern against the beginning of
`s`; the pattern is stored in lowercase, so `re.I` matching is
lowercasing each text character before comparing. -/
def prefixCI : List Char → List Char → Bool
  | [], _ => true
  | _ :: _, [] => false
  | p :: ps, c :: cs => lowerChar c == p && prefixCI ps cs

/-- Length of the longest prefix of `s` whose characters satisfy `p`
(the extent of a greedy `p*` / `p+` run). -/
def countLeading (p : Char → Bool) : List Char → Nat
  | [] => 0
  | c :: cs => if p c then countLeading p cs + 1 else 0

/-- Does `p` hold on some suffix of `s`?  Models an unanchored `re.search`
for existence: the pattern may match starting at any position. -/
def anySuffix (p : List Char → Bool) : List Char → Bool
  | [] => p []
  | c :: cs => p (c :: cs) || anySuffix p cs

/-- First character of `s` equals `c`. -/
def headEq (s : List Char) (c : Char) : Bool :=
  match s with
  | d :: _ => d == c
  | [] => false

/-- Python `str.splitlines`: accumulator of the current line (reversed)
and the remaining text. -/
def splitlinesAux : List Char → List Char → List (List Char)
  | acc, [] => if acc.isEmpty then [] else [acc.reverse]
  | acc, '\r' :: '\n' :: rest => acc.reverse :: splitlinesAux [] rest
  | acc, c :: rest =>
    if isLineBreak c then acc.reverse :: splitlinesAux [] rest
    else splitlinesAux (c :: acc) rest

/-- The lines of a document, as `content.splitlines()` produces them. -/
def pylines (content : List Char) : List (List Char) := splitlinesAux [] content

/-- Python `str.strip`: drop leading and trailing whitespace. -/
def pyStrip (l : List Char) : List Char :=
  ((l.dropWhile isPySpace).reverse.dropWhile isPySpace).reverse

/-- Literal pattern of `<!DOCTYPE` (matched case-insensitively). -/
def patDoctype : List Char := ['<', '!', 'd', 'o', 'c', 't', 'y', 'p', 'e']

/-- Literal pattern `html`. -/
def patHtmlWord : List Char := ['h', 't', 'm', 'l']

/-- Literal pattern `<html`. -/
def patHtmlOpen : List Char := ['<', 'h', 't', 'm', 'l']

/-- Literal pattern `</html>`. -/
def patHtmlClose : List Char := ['<', '/', 'h', 't', 'm', 'l', '>']

/-- Literal pattern `<head`. -/
def patHeadOpen : List Char := ['<', 'h', 'e', 'a', 'd']

/-- Literal pattern `</head>`. -/
def patHeadClose : List Char := ['<', '/', 'h', 'e', 'a', 'd', '>']

/-- Literal pattern `<body`. -/
def patBodyOpen : List Char := ['<', 'b', 'o', 'd', 'y']

/-- Literal pattern `</body>`. -/
def patBodyClose : List Char := ['<', '/', 'b', 'o', 'd', 'y', '>']

/-- Literal pattern `<title>`. -/
def patTitleOpen : List Char := ['<', 't', 'i', 't', 'l', 'e', '>']

/-- Literal pattern `</title>`. -/
def patTitleClose : List Char := ['<', '/', 't', 'i', 't', 'l', 'e', '>']

/-- Literal pattern `<link`. -/
def patLinkOpen : List Char := ['<', 'l', 'i', 'n', 'k']

/-- Literal pattern `lang`. -/
def patLang : List Char := ['l', 'a', 'n', 'g']

/-- Attribute name `href`. -/
def hrefPat : List Char := ['h', 'r', 'e', 'f']

/-- Attribute name `rel`. -/
def relPat : List Char := ['r', 'e', 'l']

/-- Match of `<!DOCTYPE\s+html` (with `re.I`) at the head of `s`. -/
def doctypeAt (s : List Char) : Bool :=
  prefixCI patDoctype s &&
  (let r := s.drop 9
   let k := countLeading isPySpace r
   k != 0 && prefixCI patHtmlWord (r.drop k))

/-- Check 1: `re.search(r'<!DOCTYPE\s+html', content, re.I)` is not `None`. -/
def doctypePresent (content : List Char) : Bool := anySuffix doctypeAt content

/-- Match of `<html\b` at the head of `s`: the literal `<html` (with
`re.I`) followed by a word boundary (end of text or a non-word character). -/
def htmlOpenAt (s : List Char) : Bool :=
  prefixCI patHtmlOpen s &&
  (match s.drop 5 with
   | [] => true
   | c :: _ => !isWordChar c)

/-- Match of `</html>` (with `re.I`) at the head of `s`. -/
def htmlCloseAt (s : List Char) : Bool := prefixCI patHtmlClose s

/-- Match of `<head\b` at the head of `s`. -/
def headOpenAt (s : List Char) : Bool :=
  prefixCI patHeadOpen s &&
  (match s.drop 5 with
   | [] => true
   | c :: _ => !isWordChar c)

/-- Match of `</head>` (with `re.I`) at the head of `s`. -/
def headCloseAt (s : List Char) : Bool := prefixCI patHeadClose s

/-- Match of `<body\b` at the head of `s`. -/
def bodyOpenAt (s : List Char) : Bool :=
  prefixCI patBodyOpen s &&
  (match s.drop 5 with
   | [] => true
   | c :: _ => !isWordChar c)

/-- Match of `</body>` (with `re.I`) at the head of `s`. -/
def bodyCloseAt (s : List Char) : Bool := prefixCI patBodyClose s

/-- Non-overlapping scan counting `re.findall` matches of a pattern of
fixed length `L`, recognised at a position by `m`; the fuel argument is
instantiated with the length of the scanned text, which suffices because
every step consumes at least one character. -/
def scanCountF (L : Nat) (m : List Char → Bool) : Nat → List Char → Nat
  | 0, _ => 0
  | _ + 1, [] => 0
  | f + 1, c :: cs =>
    if m (c :: cs) then 1 + scanCountF L m f ((c :: cs).drop (L.max 1))
    else scanCountF L m f cs

/-- Number of `re.findall` matches of the fixed-length pattern `m` in `s`. -/
def reCount (L : Nat) (m : List Char → Bool) (s : List Char) : Nat :=
  scanCountF L m s.length s

/-- `html_open = len(re.findall(r'<html\b', content, re.I))`. -/
def html_open (content : List Char) : Nat := reCount 5 htmlOpenAt content

/-- `html_close = len(re.findall(r'</html>', content, re.I))`. -/
def html_close (content : List Char) : Nat := reCount 7 htmlCloseAt content

/-- `body_open = len(re.findall(r'<body\b', content, re.I))`. -/
def body_open (content : List Char) : Nat := reCount 5 bodyOpenAt content

/-- `body_close = len(re.findall(r'</body>', content, re.I))`. -/
def body_close (content : List Char) : Nat := reCount 7 bodyCloseAt content

/-- Check 2: exactly one `<html` opening and one `</html>` closing match. -/
def htmlSingle (content : List Char) : Bool :=
  html_open content == 1 && html_close content == 1

/-- Tail of the lang pattern, `lang\s*=\s*([\"\\\'])(.*?)\1`, matched at
the head of `s`: the literal `lang` (with `re.I`), optional whitespace,
`=`, optional whitespace, a quote character from the class
double-quote / backslash / single-quote, and the same character again
later with no intervening newline (`.` does not match `\n`). -/
def langTail (s : List Char) : Bool :=
  prefixCI patLang s &&
  (let r := s.drop 4
   let r1 := r.drop (countLeading isPySpace r)
   match r1 with
   | e :: r2 =>
     e == '=' &&
     (let r3 := r2.drop (countLeading isPySpace r2)
      match r3 with
      | q :: r4 =>
        (q == dquote || q == bslash || q == squote) &&
        (r4.takeWhile (fun c => c != '\n')).contains q
      | [] => false)
   | [] => false)

/-- Scan of `[^>]*\blang...` after `<html`: `prev` is the character just
before the current position (needed for the word boundary `\b`); the
pattern may consume any run of non-`>` characters before the `lang`. -/
def langAfter : Char → List Char → Bool
  | prev, [] => !isWordChar prev && langTail []
  | prev, c :: cs =>
    (!isWordChar prev && langTail (c :: cs)) || (c != '>' && langAfter c cs)

/-- Match of `<html[^>]*\blang\s*=\s*([\"\\\'])(.*?)\1` (with `re.I`) at
the head of `s`.  The scan after `<html` starts with previous character
`l`, the last letter of the literal. -/
def langMatchAt (s : List Char) : Bool :=
  prefixCI patHtmlOpen s && langAfter 'l' (s.drop 5)

/-- Check 3: the lang pattern matches somewhere in the document. -/
def langPresent (content : List Char) : Bool := anySuffix langMatchAt content

/-- `head_open = bool(re.search(r'<head\b', content, re.I))`. -/
def head_open (content : List Char) : Bool := anySuffix headOpenAt content

/-- `head_close = bool(re.search(r'</head>', content, re.I))`. -/
def head_close (content : List Char) : Bool := anySuffix headCloseAt content

/-- Check 4: `<head` present (with boundary) and `</head>` present. -/
def headPresent (content : List Char) : Bool :=
  head_open content && head_close content

/-- Check 5: exactly one `<body` opening and one `</body>` closing match. -/
def bodySingle (content : List Char) : Bool :=
  body_open content == 1 && body_close content == 1

/-- Scan of `.*?</title>`: the closing literal must be reached without
crossing a newline, since `.` does not match `\n`. -/
def titleCloseSearch : List Char → Bool
  | [] => false
  | c :: cs =>
    prefixCI patTitleClose (c :: cs) || (c != '\n' && titleCloseSearch cs)

/-- Match of `<title>.*?</title>` (with `re.I`) at the head of `s`. -/
def titleAt (s : List Char) : Bool :=
  prefixCI patTitleOpen s && titleCloseSearch (s.drop 7)

/-- Match of `<head[\s\S]*?<title>.*?</title>` (with `re.I`) at the head
of `s`: the literal `<head` (no boundary), then anything (including
newlines) up to a `<title>.*?</title>` pair. -/
def headTitleAt (s : List Char) : Bool :=
  prefixCI patHeadOpen s && anySuffix titleAt (s.drop 5)

/-- Check 6: `re.search(r'<head[\s\S]*?<title>.*?</title>', content, re.I)`. -/
def title_in_head (content : List Char) : Bool := anySuffix headTitleAt content

/-- Match of `<link\s+([^>]+)>` (with `re.I`) at the head of `s`, giving
the captured attribute string and the remaining text after the match.
Writing `r` for the text after `<link`, `w` for its leading whitespace
run and `t` for its leading non-`>` run (`w ≤ t` since whitespace is
never `>`), the backtracking engine gives `\s+` the largest `k ≤ w` that
leaves the group `[^>]+` non-empty, so `k = min w (t - 1)`; the match
needs `k ≥ 1` and a real `>` at offset `t`. -/
def linkMatchAt (s : List Char) : Option (List Char × List Char) :=
  if prefixCI patLinkOpen s then
    let r := s.drop 5
    let w := countLeading isPySpace r
    let t := countLeading (fun c => c != '>') r
    let k := Nat.min w (t - 1)
    if 1 ≤ k && t < r.length then some ((r.drop k).take (t - k), r.drop (t + 1))
    else none
  else none

/-- Fuelled left-to-right scan collecting the captured groups of
`re.findall(r'<link\s+([^>]+)>', content, re.I)`; a match is skipped
past, a non-match advances one character. -/
def scanLinks : Nat → List Char → List (List Char)
  | 0, _ => []
  | _ + 1, [] => []
  | f + 1, c :: cs =>
    match linkMatchAt (c :: cs) with
    | some (attrs, rest) => attrs :: scanLinks f rest
    | none => scanLinks f cs

/-- `find_links(content)`: attribute strings of all `<link ...>` tags. -/
def find_links (content : List Char) : List (List Char) :=
  scanLinks content.length content

/-- Tail of the attribute pattern `name\s*=\s*("[^"]*"|\'[^\']*\')` at the
head of `s`: the attribute name (with `re.I`), optional whitespace, `=`,
optional whitespace, and a double- or single-quoted value (the closing
quote may be anywhere later, `[^"]*` crosses newlines). -/
def attrTail (name : List Char) (s : List Char) : Bool :=
  prefixCI name s &&
  (let r := s.drop name.length
   let r1 := r.drop (countLeading isPySpace r)
   match r1 with
   | e :: r2 =>
     e == '=' &&
     (let r3 := r2.drop (countLeading isPySpace r2)
      match r3 with
      | q :: r4 => (q == dquote || q == squote) && r4.contains q
      | [] => false)
   | [] => false)

/-- `attr_has(attrs, name)`: the attribute pattern matches somewhere in
the attribute string. -/
def attr_has (attrs : List Char) (name : List Char) : Bool :=
  anySuffix (attrTail name) attrs

/-- A `<link>` attribute string missing `href` or `rel`. -/
def linkProblem (attrs : List Char) : Bool :=
  !attr_has attrs hrefPat || !attr_has attrs relPat

/-- The problematic `<link>` attribute strings of a document. -/
def link_problems (content : List Char) : List (List Char) :=
  (find_links content).filter linkProblem

/-- Check 7: no problematic `<link>` tags. -/
def linksOk (content : List Char) : Bool := (link_problems content).length == 0

/-- Lookahead body `(#[0-9]+|#x[0-9a-fA-F]+|[a-zA-Z]+);` tested on the
text following a `&`.  The pattern is compiled without `re.I`, so the
`x` of a hexadecimal reference must be lowercase. -/
def entityAhead (s : List Char) : Bool :=
  (match s with
   | c :: r =>
     c == '#' &&
     ((countLeading isAsciiDigit r != 0 &&
       headEq (r.drop (countLeading isAsciiDigit r)) ';') ||
      (match r with
       | x :: r2 =>
         x == 'x' && countLeading isHexDigit r2 != 0 &&
         headEq (r2.drop (countLeading isHexDigit r2)) ';'
       | [] => false))
   | [] => false) ||
  (countLeading isAsciiLetter s != 0 &&
   headEq (s.drop (countLeading isAsciiLetter s)) ';')

/-- Match of `&(?!(#[0-9]+|#x[0-9a-fA-F]+|[a-zA-Z]+);)` at the head of
`s`: a `&` whose following text does not form a recognised entity start. -/
def badAmpAt (s : List Char) : Bool :=
  match s with
  | c :: r => c == '&' && !entityAhead r
  | [] => false

/-- Does a line contain an unescaped ampersand?  The source breaks out of
`re.finditer` after the first match, so only existence matters per line. -/
def ampLineViolation (l : List Char) : Bool := anySuffix badAmpAt l

/-- Loop of `check_unescaped_ampersands`: lines are numbered from `i`,
and a violating line contributes one `(number, stripped text)` entry. -/
def ampProblems : Nat → List (List Char) → List (Nat × List Char)
  | _, [] => []
  | i, l :: ls =>
    if ampLineViolation l then (i, pyStrip l) :: ampProblems (i + 1) ls
    else ampProblems (i + 1) ls

/-- `check_unescaped_ampersands(content)`. -/
def check_unescaped_ampersands (content : List Char) : List (Nat × List Char) :=
  ampProblems 1 (pylines content)

/-- Check 8: no line with an unescaped ampersand. -/
def ampsOk (content : List Char) : Bool :=
  (check_unescaped_ampersands content).length == 0

/-- One row of the report: description, pass flag, remediation message. -/
structure CheckResult where
  desc : String
  passed : Bool
  msg : String
deriving Repr, DecidableEq

/-- `run_checks(path)` after the file has been read: the ordered list of
eight check results and the ampersand problem list. -/
def run_checks (content : List Char) : List CheckResult × List (Nat × List Char) :=
  ([⟨"DOCTYPE declaration present", doctypePresent content,
      "Add <!DOCTYPE html> at top if missing."⟩,
    ⟨"Single <html> open/close", htmlSingle content,
      "Found <html> opens: " ++ toString (html_open content) ++
      ", closes: " ++ toString (html_close content) ++ "."⟩,
    ⟨"<html> has lang attribute", langPresent content,
      "Add lang=\"en\" (or appropriate language) to the <html> tag for accessibility."⟩,
    ⟨"<head> present and closed", headPresent content,
      "Ensure <head>...</head> exists and is properly closed."⟩,
    ⟨"<body> present and single closed", bodySingle content,
      "Found <body> opens: " ++ toString (body_open content) ++
      ", closes: " ++ toString (body_close content) ++ "."⟩,
    ⟨"<title> present inside <head>", title_in_head content,
      "Add a <title> inside <head> to improve accessibility and SEO."⟩,
    ⟨"All <link> tags have href and rel", linksOk content,
      "Problematic <link> tags: " ++ toString (link_problems content).length⟩,
    ⟨"No unescaped ampersands", ampsOk content,
      "Found " ++ toString (check_unescaped_ampersands content).length ++
      " line(s) with literal " ++ String.singleton squote ++ "&" ++
      String.singleton squote ++ " that may need escaping."⟩],
   check_unescaped_ampersands content)

/-- What the process writes: either the single file-not-found line, or
the full report rendered from the results. -/
inductive MainOutput where
  | errorLine (line : String) : MainOutput
  | report (path : String) (results : List CheckResult)
      (amps : List (Nat × List Char)) : MainOutput
deriving Repr, DecidableEq

/-- Entry flow of `__main__`: `file` is `none` when the target path does
not exist (the script then prints the error line and exits 2) and
`some content` when it exists with the given text; otherwise the checks
run, the report is printed, and the exit status is 0 exactly when every
check passed. -/
def mainRun (path : String) (file : Option (List Char)) : MainOutput × Nat :=
  match file with
  | none => (MainOutput.errorLine ("File not found: " ++ path), 2)
  | some content =>
    let rc := run_checks content
    (MainOutput.report path rc.1 rc.2,
     if rc.1.all CheckResult.passed then 0 else 1)

/-- The suffix scan succeeds exactly when the predicate holds at some
position of the text (position `s.length` being the empty suffix). -/
lemma anySuffix_iff (p : List Char → Bool) :
    ∀ s : List Char, anySuffix p s = true ↔
      ∃ i ∈ List.range (s.length + 1), p (s.drop i) = true := by
  intro s
  induction s with
  | nil =>
    constructor
    · intro h
      exact ⟨0, by simp, h⟩
    · rintro ⟨i, hi, h⟩
      simp only [List.mem_range, List.length_nil] at hi
      interval_cases i
      exact h
  | cons c cs ih =>
    simp only [anySuffix, Bool.or_eq_true]
    constructor
    · rintro (h | h)
      · exact ⟨0, by simp, h⟩
      · obtain ⟨i, hi, hp⟩ := ih.mp h
        simp only [List.mem_range] at hi
        exact ⟨i + 1, by simp only [List.mem_range, List.length_cons]; omega,
          by simpa [List.drop_succ_cons] using hp⟩
    · rintro ⟨i, hi, hp⟩
      cases i with
      | zero => exact Or.inl (by simpa using hp)
      | succ j =>
        refine Or.inr (ih.mpr ⟨j, ?_, by simpa [List.drop_succ_cons] using hp⟩)
        simp only [List.mem_range, List.length_cons] at hi ⊢
        omega

/-- The minimal valid document of the specification. -/
def minimalDoc : List Char :=
  ("<!DOCTYPE html><html lang=\"en\"><head><title>T</title></head><body></body></html>").toList

/-- C1: for the minimal valid document
`<!DOCTYPE html><html lang="en"><head><title>T</title></head><body></body></html>`,
all eight checks produced by the rule evaluator pass and the process exit
code is 0. -/
theorem C1_minimal_doc_all_pass :
    (run_checks minimalDoc).1.map CheckResult.passed
      = [true, true, true, true, true, true, true, true]
    ∧ (run_checks minimalDoc).1.length = 8
    ∧ (mainRun "index.html" (some minimalDoc)).2 = 0 := by
  refine ⟨by decide, rfl, by decide⟩

/-- C2: for every existing input file, the process prints the report, the
exit status is 0 exactly when all eight checks pass and 1 exactly when
some check fails, and all eight rules are always evaluated. -/
theorem C2_exit_codes (path : String) (content : List Char) :
    (mainRun path (some content)).1
      = MainOutput.report path (run_checks content).1 (run_checks content).2
    ∧ (run_checks content).1.length = 8
    ∧ ((mainRun path (some content)).2 = 0 ↔
        ∀ r ∈ (run_checks content).1, r.passed = true)
    ∧ ((mainRun path (some content)).2 = 1 ↔
        ∃ r ∈ (run_checks content).1, r.passed = false) := by
  have h2 : (mainRun path (some content)).2
      = if (run_checks content).1.all CheckResult.passed then 0 else 1 := rfl
  refine ⟨rfl, rfl, ?_, ?_⟩
  · rw [h2]
    cases h : (run_checks content).1.all CheckResult.passed with
    | true =>
      simp only [if_true]
      exact ⟨fun _ => List.all_eq_true.mp h, fun _ => by trivial⟩
    | false =>
      simp only [Bool.false_eq_true, if_false]
      constructor
      · intro h0
        exact absurd h0 (by omega)
      · intro hall
        obtain ⟨r, hr, hf⟩ := List.all_eq_false.mp h
        exact absurd (hall r hr) hf
  · rw [h2]
    cases h : (run_checks content).1.all CheckResult.passed with
    | true =>
      simp only [if_true]
      constructor
      · intro h0
        exact absurd h0 (by omega)
      · rintro ⟨r, hr, hf⟩
        have hp := List.all_eq_true.mp h r hr
        rw [hp] at hf
        cases hf
    | false =>
      simp only [Bool.false_eq_true, if_false]
      refine ⟨fun _ => ?_, fun _ => by trivial⟩
      obtain ⟨r, hr, hf⟩ := List.all_eq_false.mp h
      exact ⟨r, hr, by simpa using hf⟩

/-- C2 witness: on the minimal document the exit status is 0. -/
theorem C2_exit_codes_witness : (mainRun "index.html" (some minimalDoc)).2 = 0 :=
  ((C2_exit_codes "index.html" minimalDoc).2.2.1).mpr (by decide)

/-- C3: for every target path that does not exist, the program prints
`File not found: <path>`, exits with status 2, and produces no check
report. -/
theorem C3_file_not_found (path : String) :
    mainRun path none = (MainOutput.errorLine ("File not found: " ++ path), 2)
    ∧ ∀ p res amps, (mainRun path none).1 ≠ MainOutput.report p res amps := by
  refine ⟨rfl, ?_⟩
  intro p res amps h
  exact MainOutput.noConfusion h

/-- C3 witness: a concrete missing path yields the error line and exit 2. -/
theorem C3_file_not_found_witness :
    mainRun "missing.html" none
      = (MainOutput.errorLine ("File not found: " ++ "missing.html"), 2) :=
  (C3_file_not_found "missing.html").1

/-- Number of positions of `s` (including the end position) at which the
matcher `m` succeeds. -/
def posCount (m : List Char → Bool) (s : List Char) : Nat :=
  (List.range (s.length + 1)).countP (fun i => m (s.drop i))

lemma posCount_nil (m : List Char → Bool) (hnil : m [] = false) :
    posCount m [] = 0 := by
  simp [posCount, List.range_succ, hnil]

lemma posCount_cons (m : List Char → Bool) (c : Char) (cs : List Char) :
    posCount m (c :: cs) = (if m (c :: cs) then 1 else 0) + posCount m cs := by
  simp only [posCount, List.length_cons]
  rw [List.range_succ_eq_map, List.countP_cons, List.countP_map]
  simp only [Function.comp_def, List.drop_succ_cons, List.drop_zero]
  exact Nat.add_comm _ _

lemma posCount_drop_one (m : List Char → Bool)
    (s : List Char) (h : m s = false) : posCount m s = posCount m (s.drop 1) := by
  cases s with
  | nil => rfl
  | cons c cs => simp [posCount_cons, h]

/-- Skipping `k` positions that cannot match changes the positional count
only by the contribution of the current position. -/
lemma posCount_skip (m : List Char → Bool) (hnil : m [] = false) :
    ∀ (k : Nat) (s : List Char), 1 ≤ k →
      (∀ j, 1 ≤ j → j < k → m (s.drop j) = false) →
      posCount m s = (if m s then 1 else 0) + posCount m (s.drop k) := by
  intro k
  induction k with
  | zero =>
    intro s h
    exact absurd h (by omega)
  | succ k ih =>
    intro s _ hj
    by_cases hk : 1 ≤ k
    · have h1 : posCount m s = (if m s then 1 else 0) + posCount m (s.drop k) :=
        ih s hk (fun j a b => hj j a (by omega))
      have h2 : m (s.drop k) = false := hj k hk (by omega)
      have h3 : posCount m (s.drop k) = posCount m (s.drop (k + 1)) := by
        rw [show s.drop (k + 1) = (s.drop k).drop 1 by rw [List.drop_drop]]
        exact posCount_drop_one m _ h2
      rw [h1, h3]
    · have hk0 : k = 0 := by omega
      subst hk0
      cases s with
      | nil => simp [posCount_nil m hnil, hnil]
      | cons c cs => simp [posCount_cons]

/-- The fuelled `re.findall` scan of a fixed-length pattern that cannot
overlap itself counts exactly the positions at which the pattern matches. -/
lemma scanCountF_eq_posCount (L : Nat) (m : List Char → Bool) (hL : 1 ≤ L)
    (hnil : m [] = false)
    (hov : ∀ s, m s = true → ∀ j, 1 ≤ j → j < L → m (s.drop j) = false) :
    ∀ (f : Nat) (s : List Char), s.length ≤ f → scanCountF L m f s = posCount m s := by
  intro f
  induction f with
  | zero =>
    intro s hs
    have hn : s = [] := List.eq_nil_of_length_eq_zero (by omega)
    subst hn
    simp [scanCountF, posCount_nil m hnil]
  | succ f ih =>
    intro s hs
    cases s with
    | nil => simp [scanCountF, posCount_nil m hnil]
    | cons c cs =>
      simp only [scanCountF]
      by_cases h : m (c :: cs) = true
      · have hmax : L.max 1 = L := Nat.max_eq_left hL
        rw [if_pos h, hmax]
        have hlen : ((c :: cs).drop L).length ≤ f := by
          simp only [List.length_drop, List.length_cons]
          simp only [List.length_cons] at hs
          omega
        rw [ih _ hlen,
          posCount_skip m hnil L (c :: cs) hL (hov _ h), if_pos h]
      · rw [if_neg h]
        have hf : m (c :: cs) = false := by simpa using h
        have hlen : cs.length ≤ f := by
          simp only [List.length_cons] at hs
          omega
        rw [ih cs hlen, posCount_cons, hf]
        simp

lemma lower_head_of_htmlOpenAt {c : Char} {cs : List Char}
    (h : htmlOpenAt (c :: cs) = true) : lowerChar c = '<' := by
  simp only [htmlOpenAt, patHtmlOpen, prefixCI, Bool.and_eq_true, beq_iff_eq] at h
  exact h.1.1

lemma lower_head_of_htmlCloseAt {c : Char} {cs : List Char}
    (h : htmlCloseAt (c :: cs) = true) : lowerChar c = '<' := by
  simp only [htmlCloseAt, patHtmlClose, prefixCI, Bool.and_eq_true, beq_iff_eq] at h
  exact h.1

/-- The `<html\b` pattern cannot match again strictly inside a match. -/
lemma htmlOpenAt_no_overlap :
    ∀ s : List Char, htmlOpenAt s = true →
      ∀ j, 1 ≤ j → j < 5 → htmlOpenAt (s.drop j) = false := by
  intro s h j hj1 hj5
  match s with
  | [] | [c0] | [c0, c1] | [c0, c1, c2] | [c0, c1, c2, c3] =>
    simp [htmlOpenAt, patHtmlOpen, prefixCI] at h
  | c0 :: c1 :: c2 :: c3 :: c4 :: rest =>
    simp only [htmlOpenAt, patHtmlOpen, prefixCI, Bool.and_eq_true, beq_iff_eq] at h
    obtain ⟨⟨e0, e1, e2, e3, e4, -⟩, -⟩ := h
    interval_cases j
    · simp only [List.drop_succ_cons, List.drop_zero]
      cases hB : htmlOpenAt (c1 :: c2 :: c3 :: c4 :: rest) with
      | false => rfl
      | true =>
        have hlt := lower_head_of_htmlOpenAt hB
        rw [e1] at hlt
        exact absurd hlt (by decide)
    · simp only [List.drop_succ_cons, List.drop_zero]
      cases hB : htmlOpenAt (c2 :: c3 :: c4 :: rest) with
      | false => rfl
      | true =>
        have hlt := lower_head_of_htmlOpenAt hB
        rw [e2] at hlt
        exact absurd hlt (by decide)
    · simp only [List.drop_succ_cons, List.drop_zero]
      cases hB : htmlOpenAt (c3 :: c4 :: rest) with
      | false => rfl
      | true =>
        have hlt := lower_head_of_htmlOpenAt hB
        rw [e3] at hlt
        exact absurd hlt (by decide)
    · simp only [List.drop_succ_cons, List.drop_zero]
      cases hB : htmlOpenAt (c4 :: rest) with
      | false => rfl
      | true =>
        have hlt := lower_head_of_htmlOpenAt hB
        rw [e4] at hlt
        exact absurd hlt (by decide)

/-- The `</html>` pattern cannot match again strictly inside a match. -/
lemma htmlCloseAt_no_overlap :
    ∀ s : List Char, htmlCloseAt s = true →
      ∀ j, 1 ≤ j → j < 7 → htmlCloseAt (s.drop j) = false := by
  intro s h j hj1 hj7
  match s with
  | [] | [c0] | [c0, c1] | [c0, c1, c2] | [c0, c1, c2, c3]
  | [c0, c1, c2, c3, c4] | [c0, c1, c2, c3, c4, c5] =>
    simp [htmlCloseAt, patHtmlClose, prefixCI] at h
  | c0 :: c1 :: c2 :: c3 :: c4 :: c5 :: c6 :: rest =>
    simp only [htmlCloseAt, patHtmlClose, prefixCI, Bool.and_eq_true, beq_iff_eq] at h
    obtain ⟨e0, e1, e2, e3, e4, e5, e6, -⟩ := h
    interval_cases j
    · simp only [List.drop_succ_cons, List.drop_zero]
      cases hB : htmlCloseAt (c1 :: c2 :: c3 :: c4 :: c5 :: c6 :: rest) with
      | false => rfl
      | true =>
        have hlt := lower_head_of_htmlCloseAt hB
        rw [e1] at hlt
        exact absurd hlt (by decide)
    · simp only [List.drop_succ_cons, List.drop_zero]
      cases hB : htmlCloseAt (c2 :: c3 :: c4 :: c5 :: c6 :: rest) with
      | false => rfl
      | true =>
        have hlt := lower_head_of_htmlCloseAt hB
        rw [e2] at hlt
        exact absurd hlt (by decide)
    · simp only [List.drop_succ_cons, List.drop_zero]
      cases hB : htmlCloseAt (c3 :: c4 :: c5 :: c6 :: rest) with
      | false => rfl
      | true =>
        have hlt := lower_head_of_htmlCloseAt hB
        rw [e3] at hlt
        exact absurd hlt (by decide)
    · simp only [List.drop_succ_cons, List.drop_zero]
      cases hB : htmlCloseAt (c4 :: c5 :: c6 :: rest) with
      | false => rfl
      | true =>
        have hlt := lower_head_of_htmlCloseAt hB
        rw [e4] at hlt
        exact absurd hlt (by decide)
    · simp only [List.drop_succ_cons, List.drop_zero]
      cases hB : htmlCloseAt (c5 :: c6 :: rest) with
      | false => rfl
      | true =>
        have hlt := lower_head_of_htmlCloseAt hB
        rw [e5] at hlt
        exact absurd hlt (by decide)
    · simp only [List.drop_succ_cons, List.drop_zero]
      cases hB : htmlCloseAt (c6 :: rest) with
      | false => rfl
      | true =>
        have hlt := lower_head_of_htmlCloseAt hB
        rw [e6] at hlt
        exact absurd hlt (by decide)

/-- Number of positions of `content` at which the bare five-character
prefix `<html` occurs case-insensitively — the counting method claim C5
describes, with no word boundary after the prefix. -/
def claimC5OpenCount (content : List Char) : Nat :=
  posCount (prefixCI patHtmlOpen) content

/-- Number of positions of `content` at which the literal `</html>`
occurs case-insensitively. -/
def claimC5CloseCount (content : List Char) : Nat :=
  posCount (prefixCI patHtmlClose) content

/-- Document whose `<html` occurrence is followed by a word character. -/
def htmlaDoc : List Char := ("<htmla></html>").toList

/-- C5 counterexample: in `<htmla></html>` the prefix `<html` occurs once
and `</html>` occurs once, so by the claim check 2 should pass; the code
counts `<html` matches with a trailing word boundary, finds zero opens,
and the check fails. -/
theorem C5_counterexample :
    claimC5OpenCount htmlaDoc = 1 ∧ claimC5CloseCount htmlaDoc = 1
    ∧ html_open htmlaDoc = 0 ∧ htmlSingle htmlaDoc = false
    ∧ (run_checks htmlaDoc).1.get? 1 = some ⟨"Single <html> open/close", false,
        "Found <html> opens: 0, closes: 1."⟩ := by
  decide

/-- Document with a duplicated `<html>` root element. -/
def dupHtmlDoc : List Char := ("<html><html></html>").toList

/-- C5 (amended): check 2 counts the positions where `<html` occurs
case-insensitively followed by a word boundary, and the positions where
the literal `</html>` occurs case-insensitively; it passes exactly when
both counts are 1, and on a document with two `<html>` tags it fails with
a remediation message reporting opens=2. -/
theorem C5_amended_boundary_counts (content : List Char) :
    html_open content = posCount htmlOpenAt content
    ∧ html_close content = posCount htmlCloseAt content
    ∧ htmlSingle content
      = (posCount htmlOpenAt content == 1 && posCount htmlCloseAt content == 1)
    ∧ (run_checks content).1.get? 1 = some ⟨"Single <html> open/close",
        htmlSingle content,
        "Found <html> opens: " ++ toString (html_open content) ++ ", closes: "
          ++ toString (html_close content) ++ "."⟩
    ∧ (run_checks dupHtmlDoc).1.get? 1 = some ⟨"Single <html> open/close", false,
        "Found <html> opens: 2, closes: 1."⟩ := by
  have ho : html_open content = posCount htmlOpenAt content :=
    scanCountF_eq_posCount 5 htmlOpenAt (by omega) rfl htmlOpenAt_no_overlap
      content.length content (Nat.le_refl _)
  have hc : html_close content = posCount htmlCloseAt content :=
    scanCountF_eq_posCount 7 htmlCloseAt (by omega) rfl htmlCloseAt_no_overlap
      content.length content (Nat.le_refl _)
  refine ⟨ho, hc, ?_, rfl, by decide⟩
  rw [htmlSingle, ho, hc]

/-- Document equal to the minimal one with the doctype removed. -/
def noDoctypeDoc : List Char :=
  ("<html lang=\"en\"><head><title>T</title></head><body></body></html>").toList

/-- C8: every entry of the report is a function of the document alone (the
rules are independent), and removing the doctype declaration from the
minimal valid document flips only check 1 to FAIL. -/
theorem C8_doctype_frame (content : List Char) :
    (run_checks content).1.map CheckResult.passed
      = [doctypePresent content, htmlSingle content, langPresent content,
         headPresent content, bodySingle content, title_in_head content,
         linksOk content, ampsOk content]
    ∧ (run_checks minimalDoc).1.map CheckResult.passed
      = [true, true, true, true, true, true, true, true]
    ∧ (run_checks noDoctypeDoc).1.map CheckResult.passed
      = [false, true, true, true, true, true, true, true]
    ∧ doctypePresent noDoctypeDoc = false := by
  exact ⟨rfl, by decide, by decide, by decide⟩

/-- Entity grammar as claim C4 words it: after the `&`, `#` plus digits,
`#x` or `#X` plus hex digits, or one or more letters, terminated by `;`.
The code differs: its pattern accepts only a lowercase `x`. -/
def entityAheadClaimC4 (s : List Char) : Bool :=
  (match s with
   | c :: r =>
     c == '#' &&
     ((countLeading isAsciiDigit r != 0 &&
       headEq (r.drop (countLeading isAsciiDigit r)) ';') ||
      (match r with
       | x :: r2 =>
         (x == 'x' || x == 'X') && countLeading isHexDigit r2 != 0 &&
         headEq (r2.drop (countLeading isHexDigit r2)) ';'
       | [] => false))
   | [] => false) ||
  (countLeading isAsciiLetter s != 0 &&
   headEq (s.drop (countLeading isAsciiLetter s)) ';')

/-- An ampersand violating the entity grammar exactly as claim C4 words it. -/
def badAmpAtClaimC4 (s : List Char) : Bool :=
  match s with
  | c :: r => c == '&' && !entityAheadClaimC4 r
  | [] => false

/-- Document consisting of the single line `&#X41;`. -/
def ampCexDoc : List Char := ("&#X41;").toList

/-- C4 counterexample: in the line `&#X41;` the ampersand is followed by
`#X` plus hex digits terminated by `;`, so by the claim the line is not
flagged; the code's pattern accepts only a lowercase `x`, flags the line,
and check 8 fails. -/
theorem C4_counterexample :
    (∀ i ∈ List.range (ampCexDoc.length + 1),
      badAmpAtClaimC4 (ampCexDoc.drop i) = false)
    ∧ check_unescaped_ampersands ampCexDoc = [(1, ampCexDoc)]
    ∧ ampsOk ampCexDoc = false := by
  decide

/-- Entries of the ampersand problem loop are exactly the flagged lines,
numbered from `i`, with their stripped text. -/
lemma mem_ampProblems :
    ∀ (ls : List (List Char)) (i n : Nat) (t : List Char),
      (n, t) ∈ ampProblems i ls ↔
        ∃ j l, ls.get? j = some l ∧ n = i + j
          ∧ ampLineViolation l = true ∧ t = pyStrip l := by
  intro ls
  induction ls with
  | nil =>
    intro i n t
    simp [ampProblems]
  | cons l ls ih =>
    intro i n t
    simp only [ampProblems]
    by_cases hv : ampLineViolation l = true
    · rw [if_pos hv]
      simp only [List.mem_cons]
      constructor
      · rintro (he | hm)
        · simp only [Prod.mk.injEq] at he
          exact ⟨0, l, by simp, by omega, hv, he.2⟩
        · obtain ⟨j, l2, hj, hn, hv2, ht⟩ := (ih (i + 1) n t).mp hm
          exact ⟨j + 1, l2, by simpa using hj, by omega, hv2, ht⟩
      · rintro ⟨j, l2, hj, hn, hv2, ht⟩
        cases j with
        | zero =>
          left
          simp only [List.get?_cons_zero, Option.some.injEq] at hj
          subst hj
          simp only [Prod.mk.injEq]
          exact ⟨by omega, ht⟩
        | succ k =>
          right
          exact (ih (i + 1) n t).mpr ⟨k, l2, by simpa using hj, by omega, hv2, ht⟩
    · rw [if_neg hv]
      constructor
      · intro hm
        obtain ⟨j, l2, hj, hn, hv2, ht⟩ := (ih (i + 1) n t).mp hm
        exact ⟨j + 1, l2, by simpa using hj, by omega, hv2, ht⟩
      · rintro ⟨j, l2, hj, hn, hv2, ht⟩
        cases j with
        | zero =>
          simp only [List.get?_cons_zero, Option.some.injEq] at hj
          subst hj
          exact absurd hv2 hv
        | succ k =>
          exact (ih (i + 1) n t).mpr ⟨k, l2, by simpa using hj, by omega, hv2, ht⟩

/-- The problem list has exactly one entry per flagged line. -/
lemma ampProblems_length :
    ∀ (ls : List (List Char)) (i : Nat),
      (ampProblems i ls).length = (ls.filter ampLineViolation).length := by
  intro ls
  induction ls with
  | nil => intro i; rfl
  | cons l ls ih =>
    intro i
    simp only [ampProblems, List.filter_cons]
    by_cases hv : ampLineViolation l = true
    · rw [if_pos hv, if_pos hv]
      simp [ih]
    · rw [if_neg hv, if_neg hv]
      exact ih (i + 1)

/-- Every entry of the loop starting at number `i` has number at least `i`. -/
lemma ampProblems_fst_ge :
    ∀ (ls : List (List Char)) (i : Nat) (p : Nat × List Char),
      p ∈ ampProblems i ls → i ≤ p.1 := by
  intro ls
  induction ls with
  | nil =>
    intro i p hp
    simp [ampProblems] at hp
  | cons l ls ih =>
    intro i p hp
    simp only [ampProblems] at hp
    by_cases hv : ampLineViolation l = true
    · rw [if_pos hv] at hp
      rcases List.mem_cons.mp hp with he | hm
      · subst he; exact Nat.le_refl _
      · have := ih (i + 1) p hm
        omega
    · rw [if_neg hv] at hp
      have := ih (i + 1) p hp
      omega

/-- At most one ampersand violation is recorded per line number. -/
lemma ampProblems_line_once :
    ∀ (ls : List (List Char)) (i n : Nat),
      ((ampProblems i ls).filter (fun p => p.1 == n)).length ≤ 1 := by
  intro ls
  induction ls with
  | nil =>
    intro i n
    simp [ampProblems]
  | cons l ls ih =>
    intro i n
    simp only [ampProblems]
    by_cases hv : ampLineViolation l = true
    · rw [if_pos hv, List.filter_cons]
      by_cases hn : ((i, pyStrip l).1 == n) = true
      · rw [if_pos hn]
        have hempty : (ampProblems (i + 1) ls).filter (fun p => p.1 == n) = [] := by
          rw [List.filter_eq_nil_iff]
          intro p hp hpn
          have h1 := ampProblems_fst_ge ls (i + 1) p hp
          have h2 : p.1 = n := by simpa using hpn
          have h3 : i = n := by simpa using hn
          omega
        simp [hempty]
      · rw [if_neg hn]
        exact ih (i + 1) n
    · rw [if_neg hv]
      exact ih (i + 1) n

/-- C4 (amended): check 8 flags a line exactly when it contains a `&` not
immediately followed by `#` plus digits, `#x` (lowercase `x` only) plus
hex digits, or one or more letters, terminated by `;`; at most one
violation is recorded per line number; the check passes iff zero lines
are flagged; a line `Cats & Dogs` is flagged while lines
`Cats &amp; Dogs` and `&#169;` are not. -/
theorem C4_amended_lowercase_hex (content : List Char) :
    (∀ n t, (n, t) ∈ check_unescaped_ampersands content ↔
      ∃ j l, (pylines content).get? j = some l ∧ n = 1 + j
        ∧ ampLineViolation l = true ∧ t = pyStrip l)
    ∧ (∀ n, ((check_unescaped_ampersands content).filter
        (fun p => p.1 == n)).length ≤ 1)
    ∧ (ampsOk content = true ↔ ∀ l ∈ pylines content, ampLineViolation l = false)
    ∧ (∀ l, ampLineViolation l = true ↔
        ∃ i ∈ List.range (l.length + 1), badAmpAt (l.drop i) = true)
    ∧ ampLineViolation (("Cats & Dogs").toList) = true
    ∧ ampLineViolation (("Cats &amp; Dogs").toList) = false
    ∧ ampLineViolation (("&#169;").toList) = false := by
  refine ⟨fun n t => mem_ampProblems (pylines content) 1 n t,
          fun n => ampProblems_line_once (pylines content) 1 n, ?_,
          fun l => anySuffix_iff badAmpAt l, by decide, by decide, by decide⟩
  constructor
  · intro h l hl
    have hlen : (check_unescaped_ampersands content).length = 0 := by
      simpa [ampsOk] using h
    rw [check_unescaped_ampersands, ampProblems_length] at hlen
    have hfil : (pylines content).filter ampLineViolation = [] :=
      List.eq_nil_of_length_eq_zero hlen
    have hx := List.filter_eq_nil_iff.mp hfil l hl
    simpa using hx
  · intro h
    have hfil : (pylines content).filter ampLineViolation = [] := by
      rw [List.filter_eq_nil_iff]
      intro l hl
      simp [h l hl]
    simp [ampsOk, check_unescaped_ampersands, ampProblems_length, hfil]

/-- C4 witness: a document whose lines all escape their ampersands passes
check 8. -/
theorem C4_amended_lowercase_hex_witness :
    ampsOk (("Cats &amp; Dogs").toList) = true :=
  ((C4_amended_lowercase_hex (("Cats &amp; Dogs").toList)).2.2.1).mpr (by decide)

/-- Document with a `<link>` tag missing `href`. -/
def linkCexDoc : List Char := ("<link rel=\"stylesheet\">").toList

/-- C6: check 7 examines each extracted `<link>` attribute string for
quoted `href` and `rel` assignments, a tag missing either is a problem,
the check passes iff zero problems are found, and a
`<link rel="stylesheet">` tag missing `href` is one problem reported as
"Problematic <link> tags: 1". -/
theorem C6_link_attrs (content : List Char) :
    (linksOk content = true ↔ ∀ attrs ∈ find_links content,
        attr_has attrs hrefPat = true ∧ attr_has attrs relPat = true)
    ∧ (∀ attrs name, attr_has attrs name = true ↔
        ∃ i ∈ List.range (attrs.length + 1), attrTail name (attrs.drop i) = true)
    ∧ (run_checks content).1.get? 6 = some ⟨"All <link> tags have href and rel",
        linksOk content,
        "Problematic <link> tags: " ++ toString (link_problems content).length⟩
    ∧ (run_checks linkCexDoc).1.get? 6 = some ⟨"All <link> tags have href and rel",
        false, "Problematic <link> tags: 1"⟩
    ∧ link_problems linkCexDoc = [("rel=\"stylesheet\"").toList] := by
  refine ⟨?_, fun attrs name => anySuffix_iff (attrTail name) attrs, rfl,
          by decide, by decide⟩
  constructor
  · intro h attrs hmem
    have hlen : (link_problems content).length = 0 := by simpa [linksOk] using h
    have hnil : (find_links content).filter linkProblem = [] :=
      List.eq_nil_of_length_eq_zero hlen
    have hx := List.filter_eq_nil_iff.mp hnil attrs hmem
    simp only [linkProblem, Bool.or_eq_true, Bool.not_eq_true'] at hx
    push_neg at hx
    exact ⟨by simpa using hx.1, by simpa using hx.2⟩
  · intro h
    have hnil : (find_links content).filter linkProblem = [] := by
      rw [List.filter_eq_nil_iff]
      intro attrs hmem
      have hhr := h attrs hmem
      simp [linkProblem, hhr.1, hhr.2]
    have hlp : link_problems content = [] := hnil
    simp [linksOk, hlp]

/-- C6 witness: a link tag with both attributes passes check 7. -/
theorem C6_link_attrs_witness :
    linksOk (("<link href=\"s.css\" rel=\"stylesheet\">").toList) = true :=
  ((C6_link_attrs (("<link href=\"s.css\" rel=\"stylesheet\">").toList)).1).mpr
    (by decide)

/-- Lang assignment as claim C7 words it: `lang`, optional whitespace,
`=`, optional whitespace, and a single- or double-quoted value. -/
def claimC7LangAssign (s : List Char) : Bool :=
  prefixCI patLang s &&
  (let r := s.drop 4
   let r1 := r.drop (countLeading isPySpace r)
   match r1 with
   | e :: r2 =>
     e == '=' &&
     (let r3 := r2.drop (countLeading isPySpace r2)
      match r3 with
      | q :: r4 => (q == dquote || q == squote) && r4.contains q
      | [] => false)
   | [] => false)

/-- Claim C7's reading of check 3: some `<html` occurrence is followed,
anywhere later in the document, by a quoted lang assignment. -/
def claimC7Pass (content : List Char) : Bool :=
  anySuffix
    (fun s => prefixCI patHtmlOpen s && anySuffix claimC7LangAssign (s.drop 5))
    content

/-- Document whose only lang attribute sits on a `<p>` tag after the
`<html>` tag has closed. -/
def langCexDoc : List Char := ("<html><p lang=\"en\"></p></html>").toList

/-- C7 counterexample: in `<html><p lang="en"></p></html>` a quoted lang
assignment occurs after the `<html>` tag opens, so by the claim check 3
passes; the code's `[^>]*` cannot cross the `>` closing the tag, no
match exists anywhere in the document, and check 3 fails. -/
theorem C7_counterexample :
    claimC7Pass langCexDoc = true ∧ langPresent langCexDoc = false
    ∧ ((run_checks langCexDoc).1.get? 2).map CheckResult.passed = some false := by
  decide

/-- The scan after `<html` succeeds exactly when some position `n` lies
inside the run of non-`>` characters, is preceded by a non-word character
(the character before position `n` being read from `prev :: s`), and
carries the lang-assignment tail. -/
lemma langAfter_iff :
    ∀ (s : List Char) (prev : Char),
      langAfter prev s = true ↔
        ∃ n ∈ List.range (s.length + 1),
          ((s.take n).all (fun c => c != '>')) = true
          ∧ (∃ p, (prev :: s).get? n = some p ∧ isWordChar p = false)
          ∧ langTail (s.drop n) = true := by
  intro s
  induction s with
  | nil =>
    intro prev
    have hlt : langTail [] = false := by decide
    constructor
    · intro h
      simp only [langAfter, hlt, Bool.and_false] at h
      exact Bool.noConfusion h
    · rintro ⟨n, hn, -, -, hl⟩
      simp only [List.mem_range, List.length_nil] at hn
      interval_cases n
      simp only [List.drop_nil, hlt] at hl
      exact Bool.noConfusion hl
  | cons c cs ih =>
    intro prev
    constructor
    · intro h
      simp only [langAfter, Bool.or_eq_true, Bool.and_eq_true] at h
      rcases h with ⟨hw, hlt⟩ | ⟨hgt, hrec⟩
      · exact ⟨0, by simp, by simp, ⟨prev, by simp, by simpa using hw⟩,
          by simpa using hlt⟩
      · obtain ⟨n, hn, hta, ⟨p, hp, hwp⟩, hlt⟩ := (ih c).mp hrec
        simp only [List.mem_range] at hn
        refine ⟨n + 1, by simp only [List.mem_range, List.length_cons]; omega,
          ?_, ⟨p, by simpa using hp, hwp⟩, by simpa using hlt⟩
        simp only [List.take_succ_cons, List.all_cons, Bool.and_eq_true]
        exact ⟨hgt, hta⟩
    · rintro ⟨n, hn, hta, ⟨p, hp, hwp⟩, hlt⟩
      simp only [langAfter, Bool.or_eq_true, Bool.and_eq_true]
      cases n with
      | zero =>
        left
        simp only [List.get?_cons_zero, Option.some.injEq] at hp
        subst hp
        exact ⟨by simpa using hwp, by simpa using hlt⟩
      | succ m =>
        right
        simp only [List.take_succ_cons, List.all_cons, Bool.and_eq_true] at hta
        refine ⟨hta.1, (ih c).mpr ⟨m, ?_, hta.2,
          ⟨p, by simpa using hp, hwp⟩, by simpa using hlt⟩⟩
        simp only [List.mem_range, List.length_cons] at hn ⊢
        omega

/-- C7 (amended): check 3 scans the whole document — any `<html`
occurrence counts, not only the first — but the lang assignment must
begin inside the run of non-`>` characters after `<html`, preceded by a
word boundary; the value opens with a character from the class
double-quote / backslash / single-quote and must close with the same
character before the next newline. -/
theorem C7_amended_lang_in_tag (content : List Char) :
    (langPresent content = true ↔
      ∃ i ∈ List.range (content.length + 1),
        prefixCI patHtmlOpen (content.drop i) = true
        ∧ ∃ n ∈ List.range ((content.drop (i + 5)).length + 1),
            (((content.drop (i + 5)).take n).all (fun c => c != '>')) = true
            ∧ (∃ p, ('l' :: content.drop (i + 5)).get? n = some p
                ∧ isWordChar p = false)
            ∧ langTail ((content.drop (i + 5)).drop n) = true)
    ∧ (run_checks content).1.get? 2 = some ⟨"<html> has lang attribute",
        langPresent content,
        "Add lang=\"en\" (or appropriate language) to the <html> tag for accessibility."⟩
    ∧ langPresent (("<html lang=\"en\"></html>").toList) = true := by
  refine ⟨?_, rfl, by decide⟩
  rw [langPresent, anySuffix_iff]
  constructor
  · rintro ⟨i, hi, hmatch⟩
    simp only [langMatchAt, Bool.and_eq_true] at hmatch
    obtain ⟨hpre, hafter⟩ := hmatch
    have hh := (langAfter_iff _ 'l').mp hafter
    rw [List.drop_drop] at hh
    exact ⟨i, hi, hpre, hh⟩
  · rintro ⟨i, hi, hpre, hrest⟩
    refine ⟨i, hi, ?_⟩
    simp only [langMatchAt, Bool.and_eq_true]
    refine ⟨hpre, (langAfter_iff _ 'l').mpr ?_⟩
    rw [List.drop_drop]
    exact hrest

/-- C7 witness: a lang assignment inside the tag, after another
attribute, passes check 3. -/
theorem C7_amended_lang_in_tag_witness :
    langPresent (("<html x lang=\"en\">").toList) = true :=
  ((C7_amended_lang_in_tag (("<html x lang=\"en\">").toList)).1).mpr (by decide)

/-- The `.*?</title>` scan succeeds exactly when the closing literal is
reached at some position with no newline before it. -/
lemma titleCloseSearch_iff :
    ∀ s : List Char, titleCloseSearch s = true ↔
      ∃ k ∈ List.range (s.length + 1),
        ((s.take k).all (fun c => c != '\n')) = true
        ∧ prefixCI patTitleClose (s.drop k) = true := by
  intro s
  induction s with
  | nil =>
    have hcl : prefixCI patTitleClose [] = false := by decide
    constructor
    · intro h
      simp only [titleCloseSearch] at h
      exact Bool.noConfusion h
    · rintro ⟨k, hk, -, hp⟩
      simp only [List.mem_range, List.length_nil] at hk
      interval_cases k
      simp only [List.drop_nil, hcl] at hp
      exact Bool.noConfusion hp
  | cons c cs ih =>
    simp only [titleCloseSearch, Bool.or_eq_true, Bool.and_eq_true]
    constructor
    · rintro (h | ⟨hno, hrec⟩)
      · exact ⟨0, by simp, by simp, by simpa using h⟩
      · obtain ⟨k, hk, hta, hcl⟩ := ih.mp hrec
        simp only [List.mem_range] at hk
        refine ⟨k + 1, by simp only [List.mem_range, List.length_cons]; omega,
          ?_, by simpa using hcl⟩
        simp only [List.take_succ_cons, List.all_cons, Bool.and_eq_true]
        exact ⟨hno, hta⟩
    · rintro ⟨k, hk, hta, hcl⟩
      cases k with
      | zero => exact Or.inl (by simpa using hcl)
      | succ m =>
        simp only [List.take_succ_cons, List.all_cons, Bool.and_eq_true] at hta
        refine Or.inr ⟨hta.1, ih.mpr ⟨m, ?_, hta.2, by simpa using hcl⟩⟩
        simp only [List.mem_range, List.length_cons] at hk ⊢
        omega

/-- Document whose `<head` occurrence comes from a `<header>` tag. -/
def headerDoc : List Char := ("<header><title>T</title>").toList

/-- Document whose only title element spans two lines. -/
def multilineTitleDoc : List Char := ("<head><title>T\n</title></head>").toList

/-- Document whose only `<title>` open tag carries an attribute. -/
def attrTitleDoc : List Char := ("<head><title id=\"a\">T</title></head>").toList

/-- C9: check 6 passes exactly when an occurrence of `<head` (which a
`<header>` tag also provides) is followed eventually by the literal
attribute-free `<title>` whose matching `</title>` is reached without
crossing a newline; a title spanning two lines or an attributed
`<title ...>` open tag yields no match. -/
theorem C9_title_same_line (content : List Char) :
    (title_in_head content = true ↔
      ∃ i ∈ List.range (content.length + 1),
        prefixCI patHeadOpen (content.drop i) = true
        ∧ ∃ j ∈ List.range ((content.drop (i + 5)).length + 1),
            prefixCI patTitleOpen ((content.drop (i + 5)).drop j) = true
            ∧ ∃ k ∈ List.range
                ((((content.drop (i + 5)).drop j).drop 7).length + 1),
                (((((content.drop (i + 5)).drop j).drop 7).take k).all
                  (fun c => c != '\n')) = true
                ∧ prefixCI patTitleClose
                    ((((content.drop (i + 5)).drop j).drop 7).drop k) = true)
    ∧ title_in_head headerDoc = true
    ∧ title_in_head multilineTitleDoc = false
    ∧ title_in_head attrTitleDoc = false
    ∧ (run_checks content).1.get? 5 = some ⟨"<title> present inside <head>",
        title_in_head content,
        "Add a <title> inside <head> to improve accessibility and SEO."⟩ := by
  refine ⟨?_, by decide, by decide, by decide, rfl⟩
  rw [title_in_head, anySuffix_iff]
  constructor
  · rintro ⟨i, hi, hm⟩
    simp only [headTitleAt, Bool.and_eq_true] at hm
    obtain ⟨hh, ht⟩ := hm
    rw [List.drop_drop, anySuffix_iff] at ht
    obtain ⟨j, hj, htj⟩ := ht
    simp only [titleAt, Bool.and_eq_true] at htj
    obtain ⟨hto, htc⟩ := htj
    rw [titleCloseSearch_iff] at htc
    obtain ⟨k, hk, hta, hcl⟩ := htc
    exact ⟨i, hi, hh, j, hj, hto, k, hk, hta, hcl⟩
  · rintro ⟨i, hi, hh, j, hj, hto, k, hk, hta, hcl⟩
    refine ⟨i, hi, ?_⟩
    simp only [headTitleAt, Bool.and_eq_true]
    refine ⟨hh, ?_⟩
    rw [List.drop_drop, anySuffix_iff]
    refine ⟨j, hj, ?_⟩
    simp only [titleAt, Bool.and_eq_true]
    exact ⟨hto, (titleCloseSearch_iff _).mpr ⟨k, hk, hta, hcl⟩⟩

/-- C9 witness: a title closed on its own line inside `<head>` passes. -/
theorem C9_title_same_line_witness :
    title_in_head (("<head><title>x</title>").toList) = true :=
  ((C9_title_same_line (("<head><title>x</title>").toList)).1).mpr (by decide)

/-- An extracted `<link>` attribute string is never empty. -/
lemma linkMatchAt_attrs_ne_nil :
    ∀ (s attrs rest : List Char),
      linkMatchAt s = some (attrs, rest) → attrs ≠ [] := by
  intro s attrs rest h
  simp only [linkMatchAt] at h
  split at h
  case isFalse => exact Option.noConfusion h
  case isTrue hp =>
    split at h
    case isFalse => exact Option.noConfusion h
    case isTrue hc =>
      simp only [Option.some.injEq, Prod.mk.injEq] at h
      obtain ⟨ha, -⟩ := h
      subst ha
      simp only [Bool.and_eq_true, decide_eq_true_eq] at hc
      obtain ⟨hk1, htr⟩ := hc
      intro hnil
      have hkle : Nat.min (countLeading isPySpace (s.drop 5))
          (countLeading (fun c => c != '>') (s.drop 5) - 1)
          ≤ countLeading (fun c => c != '>') (s.drop 5) - 1 :=
        Nat.min_le_right _ _
      rcases List.take_eq_nil_iff.mp hnil with h0 | hdrop
      · omega
      · have hlen := List.drop_eq_nil_iff.mp hdrop
        omega

/-- Every attribute string collected by the link scan is non-empty. -/
lemma mem_scanLinks_ne_nil :
    ∀ (f : Nat) (s attrs : List Char), attrs ∈ scanLinks f s → attrs ≠ [] := by
  intro f
  induction f with
  | zero =>
    intro s attrs h
    simp [scanLinks] at h
  | succ f ih =>
    intro s attrs h
    cases s with
    | nil => simp [scanLinks] at h
    | cons c cs =>
      simp only [scanLinks] at h
      cases hm : linkMatchAt (c :: cs) with
      | none =>
        simp only [hm] at h
        exact ih cs attrs h
      | some pr =>
        rcases pr with ⟨a, rest⟩
        simp only [hm] at h
        rcases List.mem_cons.mp h with he | hmem
        · subst he
          exact linkMatchAt_attrs_ne_nil _ _ _ hm
        · exact ih rest attrs hmem

/-- The link scan collects nothing when no position matches. -/
lemma scanLinks_eq_nil :
    ∀ (f : Nat) (s : List Char),
      (∀ i ∈ List.range (s.length + 1), linkMatchAt (s.drop i) = none) →
      scanLinks f s = [] := by
  intro f
  induction f with
  | zero =>
    intro s _
    rfl
  | succ f ih =>
    intro s h
    cases s with
    | nil => rfl
    | cons c cs =>
      simp only [scanLinks]
      have h0 : linkMatchAt (c :: cs) = none := by simpa using h 0 (by simp)
      simp only [h0]
      refine ih cs (fun i hi => ?_)
      have hx := h (i + 1)
        (by simp only [List.mem_range, List.length_cons] at hi ⊢; omega)
      simpa using hx

/-- A `<link` occurrence immediately followed by `>` never matches the
link-tag pattern, which requires at least one whitespace character. -/
lemma linkMatchAt_none_of_bare (s : List Char)
    (h : prefixCI patLinkOpen s = true → headEq (s.drop 5) '>' = true) :
    linkMatchAt s = none := by
  simp only [linkMatchAt]
  split
  case isFalse => rfl
  case isTrue hp =>
    have hh := h hp
    cases hd : s.drop 5 with
    | nil => simp [headEq, hd] at hh
    | cons d rest =>
      rw [hd] at hh
      simp only [headEq, beq_iff_eq] at hh
      subst hh
      have hw : countLeading isPySpace ('>' :: rest) = 0 := by
        simp [countLeading, show isPySpace '>' = false from by decide]
      split
      case isTrue hc =>
        simp only [Bool.and_eq_true, decide_eq_true_eq] at hc
        have hmin : Nat.min (countLeading isPySpace ('>' :: rest))
            (countLeading (fun c => c != '>') ('>' :: rest) - 1)
            ≤ countLeading isPySpace ('>' :: rest) :=
          Nat.min_le_left _ _
        exact absurd hc.1 (by omega)
      case isFalse => rfl

/-- C10: the link pattern extracts only tags with whitespace and a
non-empty attribute string before `>`; bare `<link>` tags are never
extracted, so a document in which every `<link` occurrence is
immediately followed by `>` yields no extracted tags and check 7 passes. -/
theorem C10_bare_links_pass :
    (∀ (content attrs : List Char), attrs ∈ find_links content → attrs ≠ [])
    ∧ (∀ content : List Char,
        (∀ i ∈ List.range (content.length + 1),
          prefixCI patLinkOpen (content.drop i) = true →
          headEq ((content.drop i).drop 5) '>' = true) →
        find_links content = [] ∧ linksOk content = true) := by
  constructor
  · intro content attrs h
    exact mem_scanLinks_ne_nil content.length content attrs h
  · intro content h
    have hfl : find_links content = [] :=
      scanLinks_eq_nil content.length content
        (fun i hi => linkMatchAt_none_of_bare _ (h i hi))
    refine ⟨hfl, ?_⟩
    have hlp : link_problems content = [] := by
      rw [link_problems, hfl]
      rfl
    simp [linksOk, hlp]

/-- C10 witness: a document with only bare link tags passes check 7. -/
theorem C10_bare_links_pass_witness :
    find_links (("<link>ab<LINK>").toList) = []
    ∧ linksOk (("<link>ab<LINK>").toList) = true :=
  C10_bare_links_pass.2 (("<link>ab<LINK>").toList) (by decide)

end ValidateHtml
